import Mathlib

/-!
Verification development for the on-chain price-predictor pipeline
(JavaScript sources under `src/`).  Each JS function the specification
talks about is embedded as an executable Lean definition, translated
from the source:

* `PricePredictor.parseResult`, `PricePredictor.getSignal`,
  `PricePredictor.clamp`, `PricePredictor.normalizeFeatures`
  (SDK file, `PricePredictor` class);
* `calculateFeatures` (data-collection script);
* `writeToAccountChunked` / `writeAccountDirect` (deploy script);
* `runCrankCycle` (`src/scripts/crank.js`);
* the unit partitioner of spec §4.3 (no implementation exists in the
  repository; modelled from the spec, see `partition`).

JavaScript numbers are IEEE doubles; every arithmetic step embedded here
(`value / 1000` under `Math.floor`, `128 + raw*scale` under
`Math.floor`/`Math.round`, `Math.ceil(len / chunkSize)`) is exact in the
ranges the program uses (32-bit values, byte counts), so integers are
modelled as `Int`/`Nat` and raw feature inputs as `Rat`.
-/

namespace OG65

/-! ## Quantization codec (SDK `PricePredictor`) -/

/-- Trading signal, the string constants returned by `getSignal`. -/
inductive Signal where
  | strongBuy
  | buy
  | hold
  | sell
  | strongSell
deriving DecidableEq, Repr

/-- Embeds `PricePredictor.getSignal(direction, confidence)`:
`if (confidence < 100) return 'hold'; if (direction > 50) return
'strong_buy'; if (direction > 0) return 'buy'; if (direction < -50)
return 'strong_sell'; if (direction < 0) return 'sell'; return 'hold'`. -/
def getSignal (direction confidence : Int) : Signal :=
  if confidence < 100 then .hold
  else if direction > 50 then .strongBuy
  else if direction > 0 then .buy
  else if direction < -50 then .strongSell
  else if direction < 0 then .sell
  else .hold

/-- Embeds `Buffer.readInt32LE(0)` on bytes `b0 b1 b2 b3`: the
little-endian 32-bit two's-complement value. -/
def readInt32LE (b0 b1 b2 b3 : Nat) : Int :=
  let n : Nat := b0 + 256 * b1 + 65536 * b2 + 16777216 * b3
  if n < 2147483648 then (n : Int) else (n : Int) - 4294967296

/-- Little-endian 4-byte encoding of a 32-bit value, the inverse
direction of `readInt32LE` (used to state round-trip laws; the JS
program receives such buffers from the substrate). -/
def int32ToBytesLE (v : Int) : List Nat :=
  let u : Nat := (v % 4294967296).toNat
  [u % 256, u / 256 % 256, u / 65536 % 256, u / 16777216 % 256]

/-- The object literal returned by `PricePredictor.parseResult`. -/
structure PredictionResult where
  direction : Int
  rawDirection : Int
  confidence : Nat
  signal : Signal
deriving DecidableEq, Repr

/-- Embeds `PricePredictor.parseResult(returnData)`.  `null`/absent
return data yields `null` (`if (!returnData) return null`); otherwise
`value = returnData.readInt32LE(0)`, `direction = Math.floor(value /
1000)` (exact floor division for 32-bit values, `Int.fdiv`),
`confidence = Math.abs(value % 1000)` (JS `%` is the truncating
remainder, `Int.tmod`).  The public `direction` field is
`direction > 0 ? 1 : direction < 0 ? -1 : 0`, the quotient itself is the
`rawDirection` field.  A buffer shorter than 4 bytes makes
`readInt32LE` throw in JS; that case is modelled as `none`. -/
def parseResult (returnData : Option (List Nat)) : Option PredictionResult :=
  match returnData with
  | none => none
  | some (b0 :: b1 :: b2 :: b3 :: _) =>
    let value : Int := readInt32LE b0 b1 b2 b3
    let direction : Int := Int.fdiv value 1000
    let confidence : Nat := (Int.tmod value 1000).natAbs
    some
      { direction := if direction > 0 then 1 else if direction < 0 then -1 else 0
        rawDirection := direction
        confidence := confidence
        signal := getSignal direction (confidence : Int) }
  | some _ => none

/-- Embeds `PricePredictor.clamp(value)`:
`Math.max(0, Math.min(255, value))`. -/
def clamp (value : Int) : Int :=
  max 0 (min 255 value)

/-- Embeds the centered feature pattern of
`PricePredictor.normalizeFeatures`: `this.clamp(Math.floor(128 +
raw * scale))` (`volumeAccel` with scale 64, `orderbookImbal` with
scale 64, `momentum` with scale 127). -/
def encodeCentered (raw scale : Rat) : Int :=
  clamp ⌊128 + raw * scale⌋

/-- Embeds the magnitude feature pattern of
`PricePredictor.normalizeFeatures`: `this.clamp(Math.floor(raw *
scale))` (`volatility` and `liquidity` with scale 255). -/
def encodeMagnitude (raw scale : Rat) : Int :=
  clamp ⌊raw * scale⌋

/-- Embeds the centered feature pattern of `calculateFeatures` in the
data-collection script: `Math.max(0, Math.min(255, Math.round(128 +
raw * scale)))` (`priceVsSma` and `momentum` with scale 100,
`spreadFeature` with scale 1).  This is the variant that rounds to the
nearest integer; Mathlib's `round` on `Rat` rounds half up, as JS
`Math.round` does. -/
def roundCentered (raw scale : Rat) : Int :=
  clamp (round (128 + raw * scale))

/-! ## Chunked payload writer (deploy script) -/

/-- Embeds `Math.ceil(data.length / chunkSize)` from
`writeToAccountChunked` (ceiling division, exact for the byte counts
the program handles; meaningful for `chunkSize > 0`). -/
def numChunks (len chunkSize : Nat) : Nat :=
  (len + chunkSize - 1) / chunkSize

/-- Embeds the chunking loop of `writeToAccountChunked`: for `i` in
`0 ..< numChunks`, `offset = i * chunkSize` and `chunk =
data.slice(offset, offset + chunkSize)`, producing the ordered list of
`(offset, chunk)` write operations issued to `writeAccountDirect`. -/
def chunkWrites (data : List Nat) (chunkSize : Nat) : List (Nat × List Nat) :=
  (List.range (numChunks data.length chunkSize)).map
    (fun i => (i * chunkSize, (data.drop (i * chunkSize)).take chunkSize))

/-- Effect on the target account of one `writeAccountDirect` call
(substrate MODE 0x03, `[0x03][offset_lo][offset_hi][data...]`): the
chunk bytes replace the account bytes at `[offset, offset +
chunk.length)`.  Faithful while the write stays in bounds, which every
theorem below guarantees. -/
def writeAt (slot : List Nat) (offset : Nat) (chunk : List Nat) : List Nat :=
  slot.take offset ++ chunk ++ slot.drop (offset + chunk.length)

/-- Embeds `writeToAccountChunked(connection, payer, programId,
account, data, chunkSize)` as the list of chunk writes it issues, in
loop order.  `capacity` is the size of the target account's data: the
source never consults it — there is no capacity precondition and no
`SlotTooSmall` error path; the writes are issued unconditionally. -/
def writeToAccountChunked (capacity : Nat) (data : List Nat) (chunkSize : Nat) :
    List (Nat × List Nat) :=
  chunkWrites data chunkSize

/-- The account contents after `writeToAccountChunked` runs against a
slot holding `slot`: every issued chunk write applied in order through
the substrate's write-at-offset primitive. -/
def deployChunked (slot data : List Nat) (chunkSize : Nat) : List Nat :=
  (chunkWrites data chunkSize).foldl (fun acc w => writeAt acc w.1 w.2) slot

/-- Whether an `Except` result is a success (used to state which units
of a crank cycle get submitted). -/
def exceptOk {ε α : Type} : Except ε α → Bool
  | .ok _ => true
  | .error _ => false

/-! ## Pipeline orchestrator (`src/scripts/crank.js`) -/

/-- Embeds the loop of `runCrankCycle`: for each script in order,
compile it and submit the bytecode via `executePythonScript`; the
`try/catch` around the body of the loop logs a failure and lets the
loop continue.  `compile` models `compilePython` (may throw),
`exec` models `executePythonScript` (may throw).  Returns the scripts
submitted to the substrate (those whose compile succeeded, in order)
and the scripts whose iteration failed (compile or execution), in
order; the JS function itself returns `undefined` — no result value
carries a failure index. -/
def runCrankCycle {α β γ ε₁ ε₂ : Type} (scripts : List α)
    (compile : α → Except ε₁ β) (exec : β → Except ε₂ γ) : List α × List α :=
  match scripts with
  | [] => ([], [])
  | s :: rest =>
    let r := runCrankCycle rest compile exec
    match compile s with
    | .error _ => (r.1, s :: r.2)
    | .ok b =>
      match exec b with
      | .error _ => (s :: r.1, s :: r.2)
      | .ok _ => (s :: r.1, r.2)

/-! ## Unit partitioner (spec §4.3) -/

/-- Modelled from the spec: a computation-graph node with its
`estimatedCompiledBytes` and `estimatedComputeCost`; no partitioner
implementation exists in the repository (batching is hard-coded in the
archived test scripts), so the §4.3 component is modelled from the
spec's words. -/
structure GraphNode where
  bytes : Nat
  compute : Nat
deriving DecidableEq, Repr

/-- Modelled from the spec: the substrate limits `(maxBytes,
maxCompute)` given to the partitioner. -/
structure Limits where
  maxBytes : Nat
  maxCompute : Nat
deriving DecidableEq, Repr

/-- Modelled from the spec: one produced unit group `(nodeSubset,
estimatedBytes, estimatedCompute)`. -/
structure UnitGroup where
  nodes : List GraphNode
  estimatedBytes : Nat
  estimatedCompute : Nat
deriving DecidableEq, Repr

/-- Modelled from the spec: the partitioner's fatal error for a single
node whose own cost already exceeds a limit. -/
inductive PartitionError where
  | nodeExceedsBudget
deriving DecidableEq, Repr

/-- Modelled from the spec: the greedy accumulation loop of §4.3 —
`cur` (reversed), `curBytes`, `curCompute` are the open unit;
a node is added while `runningBytes + node.bytes ≤ maxBytes` and
`runningCompute + node.compute ≤ maxCompute`; otherwise the unit is
closed and a new one starts with that node, failing with
`NodeExceedsBudget` when the node alone does not fit. -/
def partitionAux (lim : Limits) (rest : List GraphNode) (cur : List GraphNode)
    (curBytes curCompute : Nat) : Except PartitionError (List UnitGroup) :=
  match rest with
  | [] => .ok [⟨cur.reverse, curBytes, curCompute⟩]
  | n :: rest2 =>
    if curBytes + n.bytes ≤ lim.maxBytes ∧ curCompute + n.compute ≤ lim.maxCompute then
      partitionAux lim rest2 (n :: cur) (curBytes + n.bytes) (curCompute + n.compute)
    else if n.bytes ≤ lim.maxBytes ∧ n.compute ≤ lim.maxCompute then
      match partitionAux lim rest2 [n] n.bytes n.compute with
      | .ok groups => .ok (⟨cur.reverse, curBytes, curCompute⟩ :: groups)
      | .error e => .error e
    else .error .nodeExceedsBudget

/-- Modelled from the spec: `partition(nodes, limits)` — first-fit,
order-preserving greedy bin-packing in node order (§4.3). -/
def partition (nodes : List GraphNode) (lim : Limits) :
    Except PartitionError (List UnitGroup) :=
  match nodes with
  | [] => .ok []
  | n :: rest =>
    if n.bytes ≤ lim.maxBytes ∧ n.compute ≤ lim.maxCompute then
      partitionAux lim rest [n] n.bytes n.compute
    else .error .nodeExceedsBudget

/-! ## Supporting lemmas -/

/-- Reading back the little-endian byte encoding of a 32-bit value
recovers the value. -/
theorem readInt32LE_int32ToBytesLE (v : Int)
    (h1 : -2147483648 ≤ v) (h2 : v < 2147483648) :
    readInt32LE ((v % 4294967296).toNat % 256) ((v % 4294967296).toNat / 256 % 256)
      ((v % 4294967296).toNat / 65536 % 256) ((v % 4294967296).toNat / 16777216 % 256) = v := by
  have h0 : (0:Int) ≤ v % 4294967296 := Int.emod_nonneg v (by norm_num)
  have hcast : (((v % 4294967296).toNat : Nat) : Int) = v % 4294967296 :=
    Int.toNat_of_nonneg h0
  unfold readInt32LE
  have hsum : (v % 4294967296).toNat % 256 + 256 * ((v % 4294967296).toNat / 256 % 256)
      + 65536 * ((v % 4294967296).toNat / 65536 % 256)
      + 16777216 * ((v % 4294967296).toNat / 16777216 % 256) = (v % 4294967296).toNat := by
    omega
  simp only [hsum]
  split <;> omega

/-- `parseResult` on the byte encoding of a 32-bit value, written out
field by field. -/
theorem parseResult_toBytes (v : Int)
    (h1 : -2147483648 ≤ v) (h2 : v < 2147483648) :
    parseResult (some (int32ToBytesLE v)) =
      some { direction := if Int.fdiv v 1000 > 0 then 1
                          else if Int.fdiv v 1000 < 0 then -1 else 0
             rawDirection := Int.fdiv v 1000
             confidence := (Int.tmod v 1000).natAbs
             signal := getSignal (Int.fdiv v 1000) ((Int.tmod v 1000).natAbs : Int) } := by
  have h := readInt32LE_int32ToBytesLE v h1 h2
  simp only [int32ToBytesLE, parseResult]
  rw [h]

/-- An empty payload needs no chunks. -/
theorem numChunks_zero (cs : Nat) : numChunks 0 cs = 0 := by
  cases cs with
  | zero => rfl
  | succ c => exact Nat.div_eq_of_lt (by omega)

/-- A non-empty payload no longer than the chunk size is one chunk. -/
theorem numChunks_small (len cs : Nat) (h1 : 0 < len) (h2 : len ≤ cs) :
    numChunks len cs = 1 := by
  have hcs : 0 < cs := by omega
  unfold numChunks
  rw [show len + cs - 1 = (len - 1) + cs by omega, Nat.add_div_right _ hcs,
    Nat.div_eq_of_lt (by omega)]

/-- Peeling one chunk off the front of the payload drops the chunk
count by one. -/
theorem numChunks_step (len cs : Nat) (hcs : 0 < cs) (h : cs ≤ len) :
    numChunks len cs = numChunks (len - cs) cs + 1 := by
  unfold numChunks
  rw [show len + cs - 1 = ((len - cs) + cs - 1) + cs by omega, Nat.add_div_right _ hcs]

/-- A non-empty payload produces at least one chunk. -/
theorem numChunks_pos (len cs : Nat) (h1 : 0 < len) (hcs : 0 < cs) :
    0 < numChunks len cs := by
  unfold numChunks
  rw [Nat.lt_iff_add_one_le, Nat.le_div_iff_mul_le hcs]
  omega

/-- No chunk writes are issued for an empty payload. -/
theorem chunkWrites_nil (cs : Nat) : chunkWrites [] cs = [] := by
  simp [chunkWrites, numChunks_zero]

/-- Recursive characterisation of the chunking loop: the first chunk is
the first `cs` bytes at offset 0 and the remaining chunks are the
chunks of the rest of the payload, their offsets shifted by `cs`. -/
theorem chunkWrites_cons (data : List Nat) (cs : Nat) (hcs : 0 < cs)
    (hd : data ≠ []) :
    chunkWrites data cs =
      (0, data.take cs) ::
        (chunkWrites (data.drop cs) cs).map (fun w => (w.1 + cs, w.2)) := by
  have hlen : 0 < data.length := List.length_pos.mpr hd
  by_cases hsmall : data.length ≤ cs
  · have hdrop : data.drop cs = [] := List.drop_eq_nil_of_le hsmall
    rw [hdrop, chunkWrites_nil]
    simp [chunkWrites, numChunks_small data.length cs hlen hsmall, List.range_succ]
  · push_neg at hsmall
    have hstep : numChunks data.length cs = numChunks (data.length - cs) cs + 1 :=
      numChunks_step data.length cs hcs (le_of_lt hsmall)
    simp only [chunkWrites, List.length_drop, hstep, List.range_succ_eq_map,
      List.map_cons, List.map_map, Nat.zero_mul, List.drop_zero]
    congr 1
    apply List.map_congr_left
    intro i hi
    simp [Nat.succ_mul, List.drop_drop, Nat.add_comm]

/-- A write entirely beyond a fixed byte block leaves the block
untouched. -/
theorem writeAt_shift (p s c : List Nat) (o : Nat) :
    writeAt (p ++ s) (p.length + o) c = p ++ writeAt s o c := by
  unfold writeAt
  rw [List.take_append_eq_append_take, List.drop_append_eq_append_drop]
  simp [List.take_of_length_le, Nat.add_assoc]

/-- A whole sequence of writes beyond a fixed byte block leaves the
block untouched. -/
theorem foldl_writeAt_shift (ws : List (Nat × List Nat)) (p s : List Nat) :
    (ws.map (fun w => (w.1 + p.length, w.2))).foldl
        (fun acc w => writeAt acc w.1 w.2) (p ++ s) =
      p ++ ws.foldl (fun acc w => writeAt acc w.1 w.2) s := by
  induction ws generalizing s with
  | nil => rfl
  | cons w ws ih =>
    simp only [List.map_cons, List.foldl_cons]
    rw [Nat.add_comm w.1 p.length, writeAt_shift, ih]

/-- Main deploy equation, by strong induction on the payload length:
applying every chunk write to a slot of sufficient capacity leaves the
payload at the front of the slot and the tail of the slot untouched. -/
theorem deployChunked_eq_aux (cs : Nat) (hcs : 0 < cs) :
    ∀ (n : Nat) (data slot : List Nat), data.length = n →
      data.length ≤ slot.length →
      deployChunked slot data cs = data ++ slot.drop data.length := by
  intro n
  induction n using Nat.strong_induction_on with
  | _ n ih =>
    intro data slot hn hcap
    match data with
    | [] => simp [deployChunked, chunkWrites_nil]
    | d :: ds =>
      have hn2 : ds.length + 1 = n := by simpa using hn
      have hcap2 : ds.length + 1 ≤ slot.length := by simpa using hcap
      have hne : (d :: ds : List Nat) ≠ [] := by simp
      rw [deployChunked, chunkWrites_cons _ _ hcs hne, List.foldl_cons]
      have hw0 : writeAt slot 0 ((d :: ds).take cs) =
          (d :: ds).take cs ++ slot.drop ((d :: ds).take cs).length := by
        simp [writeAt]
      by_cases hsmall : (d :: ds).length ≤ cs
      · have hdrop : (d :: ds).drop cs = [] := List.drop_eq_nil_of_le hsmall
        have htake : (d :: ds).take cs = d :: ds := List.take_of_length_le hsmall
        rw [hdrop, chunkWrites_nil, List.map_nil, List.foldl_nil, hw0, htake]
      · push_neg at hsmall
        have hsmall2 : cs < ds.length + 1 := by simpa using hsmall
        have htlen : ((d :: ds).take cs).length = cs := by
          simp only [List.length_take, List.length_cons]
          omega
        rw [hw0, htlen]
        have hshift : ((chunkWrites ((d :: ds).drop cs) cs).map
              (fun w => (w.1 + cs, w.2))).foldl (fun acc w => writeAt acc w.1 w.2)
              ((d :: ds).take cs ++ slot.drop cs) =
            (d :: ds).take cs ++ (chunkWrites ((d :: ds).drop cs) cs).foldl
              (fun acc w => writeAt acc w.1 w.2) (slot.drop cs) := by
          have h2 := foldl_writeAt_shift (chunkWrites ((d :: ds).drop cs) cs)
            ((d :: ds).take cs) (slot.drop cs)
          rw [htlen] at h2
          exact h2
        rw [hshift]
        have hrec : deployChunked (slot.drop cs) ((d :: ds).drop cs) cs =
            (d :: ds).drop cs ++ (slot.drop cs).drop ((d :: ds).drop cs).length := by
          apply ih (((d :: ds).drop cs).length) _ _ _ rfl
          · simp only [List.length_drop, List.length_cons]
            omega
          · simp only [List.length_drop, List.length_cons]
            omega
        rw [show (chunkWrites ((d :: ds).drop cs) cs).foldl
              (fun acc w => writeAt acc w.1 w.2) (slot.drop cs) =
            deployChunked (slot.drop cs) ((d :: ds).drop cs) cs from rfl, hrec]
        rw [List.drop_drop, List.length_drop]
        rw [← List.append_assoc, List.take_append_drop]
        congr 2
        simp only [List.length_cons]
        omega

/-- Deploy equation at the payload's own length. -/
theorem deployChunked_eq (data slot : List Nat) (cs : Nat) (hcs : 0 < cs)
    (hcap : data.length ≤ slot.length) :
    deployChunked slot data cs = data ++ slot.drop data.length :=
  deployChunked_eq_aux cs hcs data.length data slot rfl hcap

/-- Concatenating the chunk byte lists in order recovers the payload. -/
theorem chunkWrites_flatten_aux (cs : Nat) (hcs : 0 < cs) :
    ∀ (n : Nat) (data : List Nat), data.length = n →
      ((chunkWrites data cs).map Prod.snd).flatten = data := by
  intro n
  induction n using Nat.strong_induction_on with
  | _ n ih =>
    intro data hn
    match data with
    | [] => simp [chunkWrites_nil]
    | d :: ds =>
      have hn2 : ds.length + 1 = n := by simpa using hn
      have hrec := ih (((d :: ds).drop cs).length)
        (by simp only [List.length_drop, List.length_cons]; omega)
        ((d :: ds).drop cs) rfl
      rw [chunkWrites_cons _ _ hcs (by simp)]
      simp only [List.map_cons, List.flatten_cons, List.map_map]
      have hsnd : (Prod.snd ∘ fun w : Nat × List Nat => (w.1 + cs, w.2)) =
          (Prod.snd : Nat × List Nat → List Nat) := rfl
      rw [hsnd, hrec]
      exact List.take_append_drop cs (d :: ds)

/-- All chunks but the last start strictly inside the payload. -/
theorem numChunks_pred_mul_lt (cs : Nat) (hcs : 0 < cs) :
    ∀ (n : Nat) (len : Nat), len = n → 0 < len →
      (numChunks len cs - 1) * cs < len := by
  intro n
  induction n using Nat.strong_induction_on with
  | _ n ih =>
    intro len hn hpos
    by_cases hsmall : len ≤ cs
    · rw [numChunks_small len cs hpos hsmall]
      simpa using hpos
    · push_neg at hsmall
      rw [numChunks_step len cs hcs (le_of_lt hsmall)]
      have hpos2 : 0 < len - cs := by omega
      have h2 := ih (len - cs) (by omega) (len - cs) rfl hpos2
      have h3 : 0 < numChunks (len - cs) cs := numChunks_pos (len - cs) cs hpos2 hcs
      have h4 : numChunks (len - cs) cs + 1 - 1 = (numChunks (len - cs) cs - 1) + 1 := by
        omega
      rw [h4, Nat.add_mul, one_mul]
      omega

/-- Invariant of the greedy accumulation loop: if it succeeds starting
from an open unit whose running totals are within the limits and equal
to the sums over the accumulated nodes, then every produced unit is
within the limits with correct totals, and the units concatenate to the
accumulated nodes followed by the remaining input. -/
theorem partitionAux_spec (lim : Limits) :
    ∀ (rest cur : List GraphNode) (cb cc : Nat) (units : List UnitGroup),
      partitionAux lim rest cur cb cc = .ok units →
      cb ≤ lim.maxBytes → cc ≤ lim.maxCompute →
      cb = (cur.map GraphNode.bytes).sum → cc = (cur.map GraphNode.compute).sum →
      (∀ u ∈ units,
        u.estimatedBytes ≤ lim.maxBytes ∧ u.estimatedCompute ≤ lim.maxCompute ∧
        u.estimatedBytes = (u.nodes.map GraphNode.bytes).sum ∧
        u.estimatedCompute = (u.nodes.map GraphNode.compute).sum) ∧
      (units.map UnitGroup.nodes).flatten = cur.reverse ++ rest := by
  intro rest
  induction rest with
  | nil =>
    intro cur cb cc units h hb hc hsb hsc
    simp only [partitionAux, Except.ok.injEq] at h
    subst h
    refine ⟨?_, by simp⟩
    intro u hu
    simp only [List.mem_singleton] at hu
    subst hu
    refine ⟨hb, hc, ?_, ?_⟩ <;>
      simp [List.map_reverse, List.sum_reverse, hsb, hsc]
  | cons n rest2 ih =>
    intro cur cb cc units h hb hc hsb hsc
    simp only [partitionAux] at h
    split at h
    · rename_i hfit
      have hres := ih (n :: cur) (cb + n.bytes) (cc + n.compute) units h
        hfit.1 hfit.2 (by simp [hsb, Nat.add_comm]) (by simp [hsc, Nat.add_comm])
      refine ⟨hres.1, ?_⟩
      rw [hres.2]
      simp [List.reverse_cons, List.append_assoc]
    · split at h
      · rename_i hnfit hfit1
        cases hpa : partitionAux lim rest2 [n] n.bytes n.compute with
        | error e => rw [hpa] at h; cases h
        | ok gs =>
          rw [hpa] at h
          simp only [Except.ok.injEq] at h
          subst h
          have hres := ih [n] n.bytes n.compute gs hpa hfit1.1 hfit1.2
            (by simp) (by simp)
          constructor
          · intro u hu
            simp only [List.mem_cons] at hu
            cases hu with
            | inl hu =>
              subst hu
              refine ⟨hb, hc, ?_, ?_⟩ <;>
                simp [List.map_reverse, List.sum_reverse, hsb, hsc]
            | inr hu => exact hres.1 u hu
          · simp only [List.map_cons, List.flatten_cons, hres.2]
            simp [List.append_assoc]
      · cases h

/-! ## Claim theorems -/

/-- C1: decoding a packed prediction value follows floor division with
truncating remainder — the four concrete buffers decode to
`direction=21/confidence=184/BUY`, `direction=-76/confidence=123/
STRONG_SELL`, `direction=0/confidence=500/HOLD` and
`direction=0/confidence=99/HOLD`, and for every 32-bit value the
decoded quotient is `floor(value/1000)` and the confidence is the
absolute value of the truncating remainder `value rem 1000`. -/
theorem decodeResult_floor_truncRem :
    parseResult (some (int32ToBytesLE 21184)) = some ⟨1, 21, 184, .buy⟩ ∧
    parseResult (some (int32ToBytesLE (-75123))) = some ⟨-1, -76, 123, .strongSell⟩ ∧
    parseResult (some (int32ToBytesLE 500)) = some ⟨0, 0, 500, .hold⟩ ∧
    parseResult (some (int32ToBytesLE 99)) = some ⟨0, 0, 99, .hold⟩ ∧
    ∀ v : Int, -2147483648 ≤ v → v < 2147483648 →
      ∃ r, parseResult (some (int32ToBytesLE v)) = some r ∧
        r.rawDirection = Int.fdiv v 1000 ∧
        r.confidence = (Int.tmod v 1000).natAbs ∧
        r.signal = getSignal (Int.fdiv v 1000) ((Int.tmod v 1000).natAbs : Int) := by
  refine ⟨by decide, by decide, by decide, by decide, ?_⟩
  intro v h1 h2
  exact ⟨_, parseResult_toBytes v h1 h2, rfl, rfl, rfl⟩

/-- C1 witness: the general law instantiated at `value = -75123`. -/
theorem decodeResult_floor_truncRem_witness :
    (-2147483648 : Int) ≤ -75123 ∧ (-75123 : Int) < 2147483648 ∧
    ∃ r, parseResult (some (int32ToBytesLE (-75123))) = some r ∧
      r.rawDirection = Int.fdiv (-75123) 1000 ∧
      r.confidence = (Int.tmod (-75123) 1000).natAbs ∧
      r.signal = getSignal (Int.fdiv (-75123) 1000) ((Int.tmod (-75123) 1000).natAbs : Int) :=
  ⟨by decide, by decide,
    decodeResult_floor_truncRem.2.2.2.2 (-75123) (by decide) (by decide)⟩

/-- C2 counterexample: in `runCrankCycle` the unit at index 0 fails in
execution, yet the unit at index 1 is still submitted to the substrate,
and the cycle's value reports no failed-unit index (the JS function
returns `undefined`) — refuting the claim that after a failure at index
k no later unit is submitted. -/
theorem runCrankCycle_counterexample :
    runCrankCycle [0, 1] (fun n => (Except.ok n : Except Unit Nat))
        (fun n => if n = 0 then (Except.error () : Except Unit Nat) else Except.ok n) =
      ([0, 1], [0]) ∧
    (0 : Nat) ∈ (runCrankCycle [0, 1] (fun n => (Except.ok n : Except Unit Nat))
        (fun n => if n = 0 then (Except.error () : Except Unit Nat) else Except.ok n)).2 ∧
    (1 : Nat) ∈ (runCrankCycle [0, 1] (fun n => (Except.ok n : Except Unit Nat))
        (fun n => if n = 0 then (Except.error () : Except Unit Nat) else Except.ok n)).1 := by
  refine ⟨rfl, ?_, ?_⟩ <;> simp [runCrankCycle]

/-- C2 amended: the crank cycle catches each unit's failure and
continues — the units submitted to the substrate are exactly the ones
whose compile step succeeds, independent of any earlier unit's failure,
and the failed units are exactly those whose compile or execution step
fails; no failure index is returned. -/
theorem runCrankCycle_submits_all_compiled {α β γ ε₁ ε₂ : Type}
    (scripts : List α) (compile : α → Except ε₁ β) (exec : β → Except ε₂ γ) :
    (runCrankCycle scripts compile exec).1 =
      scripts.filter (fun s => exceptOk (compile s)) ∧
    (runCrankCycle scripts compile exec).2 =
      scripts.filter (fun s =>
        match compile s with
        | .error _ => true
        | .ok b => !(exceptOk (exec b))) := by
  induction scripts with
  | nil => exact ⟨rfl, rfl⟩
  | cons s rest ih =>
    simp only [runCrankCycle, List.filter_cons]
    cases hc : compile s with
    | error e =>
      simp [hc, exceptOk, ih.1, ih.2]
    | ok b =>
      cases he : exec b with
      | error e2 => simp [hc, he, exceptOk, ih.1, ih.2]
      | ok g => simp [hc, he, exceptOk, ih.1, ih.2]

/-- C3 counterexample: deploying a 2-byte payload against an account of
capacity 1 still issues both chunk writes — there is no `SlotTooSmall`
failure and chunk writes are performed, refuting the claimed capacity
precondition. -/
theorem writeToAccountChunked_undersized_writes_anyway :
    writeToAccountChunked 1 [1, 2] 1 = [(0, [1]), (1, [2])] ∧
    writeToAccountChunked 1 [1, 2] 1 ≠ [] := by
  refine ⟨?_, ?_⟩ <;> decide

/-- C3 amended: the chunked deploy performs no capacity check at all —
its issued writes are identical for every capacity, number
`ceil(payload.length / chunkSize)`, and are non-empty for every
non-empty payload, undersized slots included; bounds enforcement is
left entirely to the substrate. -/
theorem writeToAccountChunked_no_capacity_precondition :
    ∀ (capacity capacity2 : Nat) (data : List Nat) (chunkSize : Nat),
      writeToAccountChunked capacity data chunkSize =
        writeToAccountChunked capacity2 data chunkSize ∧
      (writeToAccountChunked capacity data chunkSize).length =
        numChunks data.length chunkSize ∧
      (0 < chunkSize → data ≠ [] →
        writeToAccountChunked capacity data chunkSize ≠ []) := by
  intro c c2 data cs
  refine ⟨rfl, by simp [writeToAccountChunked, chunkWrites], ?_⟩
  intro hcs hne
  have hpos := numChunks_pos data.length cs (List.length_pos.mpr hne) hcs
  apply List.length_pos.mp
  simpa [writeToAccountChunked, chunkWrites] using hpos

/-- C3 amended witness: capacities 1 and 99 issue the same writes for a
2-byte payload, and the writes are non-empty. -/
theorem writeToAccountChunked_no_capacity_precondition_witness :
    writeToAccountChunked 1 [1, 2] 1 = writeToAccountChunked 99 [1, 2] 1 ∧
    (writeToAccountChunked 1 [1, 2] 1).length = numChunks 2 1 ∧
    writeToAccountChunked 1 [1, 2] 1 ≠ [] := by
  have h := writeToAccountChunked_no_capacity_precondition 1 99 [1, 2] 1
  exact ⟨h.1, h.2.1, h.2.2 (by decide) (by decide)⟩

/-- C4 counterexample: at `raw = 1/128`, `scale = 64` the scaled value
is 128.5; the SDK's centered encoder floors it to 128, while
`clamp(round(128 + raw*scale), 0, 255)` gives 129 — the centered
encoding does not equal the claimed rounded form. -/
theorem encodeCentered_not_round :
    encodeCentered (1/128) 64 = 128 ∧
    clamp (round ((128:Rat) + (1/128) * 64)) = 129 ∧
    encodeCentered (1/128) 64 ≠ clamp (round ((128:Rat) + (1/128) * 64)) := by
  refine ⟨?_, ?_, ?_⟩ <;> norm_num [encodeCentered, clamp, round_eq]

/-- C4 amended: the SDK's centered encoding equals
`clamp(floor(128 + raw*scale), 0, 255)` — it maps to `clamp k` for the
unique integer `k` with `k ≤ 128 + raw*scale < k+1` — while the
data-collection script's centered features use the claimed
round-to-nearest form, mapping to `clamp k` for the unique `k` with
`k - 1/2 ≤ 128 + raw*scale < k + 1/2`. -/
theorem encodeCentered_floor_char (raw scale : Rat) (k : Int) :
    ((k : Rat) ≤ 128 + raw * scale → 128 + raw * scale < k + 1 →
      encodeCentered raw scale = clamp k) ∧
    ((k : Rat) - 1/2 ≤ 128 + raw * scale → 128 + raw * scale < (k : Rat) + 1/2 →
      roundCentered raw scale = clamp k) := by
  constructor
  · intro hl hr
    unfold encodeCentered
    rw [Int.floor_eq_iff.mpr ⟨hl, by linarith⟩]
  · intro hl hr
    unfold roundCentered
    rw [round_eq]
    have hfl : ⌊128 + raw * scale + 1/2⌋ = k :=
      Int.floor_eq_iff.mpr ⟨by linarith, by linarith⟩
    rw [hfl]

/-- C4 amended witness: the two characterisations instantiated at
`raw = 1/128`, `scale = 64`, where floor gives 128 and round gives
129. -/
theorem encodeCentered_floor_char_witness :
    encodeCentered (1/128) 64 = clamp 128 ∧ roundCentered (1/128) 64 = clamp 129 :=
  ⟨(encodeCentered_floor_char (1/128) 64 128).1 (by norm_num) (by norm_num),
   (encodeCentered_floor_char (1/128) 64 129).2 (by norm_num) (by norm_num)⟩

/-- C5: for all raw inputs and scales, the centered and magnitude
encoders produce values in `[0, 255]`, and a scaled value outside that
range saturates to 0 or 255 rather than wrapping. -/
theorem encode_clamp_laws (raw scale : Rat) :
    0 ≤ encodeCentered raw scale ∧ encodeCentered raw scale ≤ 255 ∧
    0 ≤ encodeMagnitude raw scale ∧ encodeMagnitude raw scale ≤ 255 ∧
    (⌊128 + raw * scale⌋ < 0 → encodeCentered raw scale = 0) ∧
    (255 < ⌊128 + raw * scale⌋ → encodeCentered raw scale = 255) ∧
    (⌊raw * scale⌋ < 0 → encodeMagnitude raw scale = 0) ∧
    (255 < ⌊raw * scale⌋ → encodeMagnitude raw scale = 255) := by
  unfold encodeCentered encodeMagnitude clamp
  refine ⟨?_, ?_, ?_, ?_, ?_, ?_, ?_, ?_⟩ <;> omega

/-- C5 witness: extreme inputs saturate to the endpoints. -/
theorem encode_clamp_laws_witness :
    (0 ≤ encodeCentered (-100) 64 ∧ encodeCentered (-100) 64 ≤ 255) ∧
    encodeCentered (-100) 64 = 0 ∧ encodeCentered 100 64 = 255 ∧
    encodeMagnitude (-100) 255 = 0 ∧ encodeMagnitude 100 255 = 255 :=
  ⟨⟨(encode_clamp_laws (-100) 64).1, (encode_clamp_laws (-100) 64).2.1⟩,
   (encode_clamp_laws (-100) 64).2.2.2.2.1 (by norm_num),
   (encode_clamp_laws 100 64).2.2.2.2.2.1 (by norm_num),
   (encode_clamp_laws (-100) 255).2.2.2.2.2.2.1 (by norm_num),
   (encode_clamp_laws 100 255).2.2.2.2.2.2.2 (by norm_num)⟩

/-- C6: the signal classification follows exactly the claimed rule
order — the confidence gate fires first (`confidence < 100` is HOLD for
every direction), then `direction > 50` is STRONG_BUY, `direction > 0`
is BUY, `direction < -50` is STRONG_SELL, `direction < 0` is SELL, and
`direction = 0` is HOLD. -/
theorem getSignal_rule_order :
    ∀ direction confidence : Int,
      (confidence < 100 → getSignal direction confidence = .hold) ∧
      (100 ≤ confidence → 50 < direction → getSignal direction confidence = .strongBuy) ∧
      (100 ≤ confidence → 0 < direction → direction ≤ 50 →
        getSignal direction confidence = .buy) ∧
      (100 ≤ confidence → direction < -50 → getSignal direction confidence = .strongSell) ∧
      (100 ≤ confidence → -50 ≤ direction → direction < 0 →
        getSignal direction confidence = .sell) ∧
      (100 ≤ confidence → direction = 0 → getSignal direction confidence = .hold) := by
  intro d c
  refine ⟨?_, ?_, ?_, ?_, ?_, ?_⟩ <;> intros <;> simp only [getSignal] <;>
    (repeat' split) <;> first | rfl | omega

/-- C6 witness: one concrete instance per rule, including the
confidence gate overriding a strongly positive direction. -/
theorem getSignal_rule_order_witness :
    getSignal 60 99 = Signal.hold ∧ getSignal 60 150 = Signal.strongBuy ∧
    getSignal 20 150 = Signal.buy ∧ getSignal (-60) 150 = Signal.strongSell ∧
    getSignal (-20) 150 = Signal.sell ∧ getSignal 0 150 = Signal.hold :=
  ⟨(getSignal_rule_order 60 99).1 (by decide),
   (getSignal_rule_order 60 150).2.1 (by decide) (by decide),
   (getSignal_rule_order 20 150).2.2.1 (by decide) (by decide) (by decide),
   (getSignal_rule_order (-60) 150).2.2.2.1 (by decide) (by decide),
   (getSignal_rule_order (-20) 150).2.2.2.2.1 (by decide) (by decide) (by decide),
   (getSignal_rule_order 0 150).2.2.2.2.2 (by decide) (by decide)⟩

/-- C7: writing all chunks of a payload into a zero-initialised slot of
sufficient capacity and reading back the first `payload.length` bytes
reproduces the payload byte for byte, and the slot contents do not
depend on the chosen chunk size. -/
theorem chunk_roundtrip (data : List Nat) (capacity cs cs2 : Nat)
    (h1 : 0 < cs) (h2 : 0 < cs2) (hcap : data.length ≤ capacity) :
    (deployChunked (List.replicate capacity 0) data cs).take data.length = data ∧
    deployChunked (List.replicate capacity 0) data cs =
      deployChunked (List.replicate capacity 0) data cs2 := by
  have hlen : data.length ≤ (List.replicate capacity 0 : List Nat).length := by
    simpa using hcap
  have e1 := deployChunked_eq data (List.replicate capacity 0) cs h1 hlen
  have e2 := deployChunked_eq data (List.replicate capacity 0) cs2 h2 hlen
  refine ⟨?_, ?_⟩
  · rw [e1, List.take_left]
  · rw [e1, e2]

/-- C7 witness: round-trip of a 2-byte payload through a 5-byte slot at
chunk sizes 3 and 2. -/
theorem chunk_roundtrip_witness :
    (0 < 3 ∧ 0 < 2 ∧ 2 ≤ 5) ∧
    (deployChunked (List.replicate 5 0) [7, 8] 3).take 2 = [7, 8] ∧
    deployChunked (List.replicate 5 0) [7, 8] 3 =
      deployChunked (List.replicate 5 0) [7, 8] 2 :=
  ⟨⟨by decide, by decide, by decide⟩,
    chunk_roundtrip [7, 8] 5 3 2 (by decide) (by decide) (by decide)⟩

/-- C8: the chunked deploy issues `ceil(payload.length / chunkSize)`
writes, where write `i` carries absolute offset `i * chunkSize` and the
payload slice starting there, every chunk except possibly the last has
exactly `chunkSize` bytes, the chunks concatenate back to the payload,
and the writes are issued in strictly increasing offset order. -/
theorem chunk_structure (data : List Nat) (cs : Nat) (hcs : 0 < cs)
    (hne : data ≠ []) :
    (chunkWrites data cs).length = numChunks data.length cs ∧
    (∀ i (h : i < (chunkWrites data cs).length),
      ((chunkWrites data cs).get ⟨i, h⟩).1 = i * cs ∧
      ((chunkWrites data cs).get ⟨i, h⟩).2 = (data.drop (i * cs)).take cs) ∧
    (∀ i (h : i < (chunkWrites data cs).length),
      i + 1 < (chunkWrites data cs).length →
      ((chunkWrites data cs).get ⟨i, h⟩).2.length = cs) ∧
    ((chunkWrites data cs).map Prod.snd).flatten = data ∧
    List.Pairwise (fun a b : Nat × List Nat => a.1 < b.1) (chunkWrites data cs) := by
  have hlen : (chunkWrites data cs).length = numChunks data.length cs := by
    simp [chunkWrites]
  have hget : ∀ i (h : i < (chunkWrites data cs).length),
      (chunkWrites data cs).get ⟨i, h⟩ =
        (i * cs, (data.drop (i * cs)).take cs) := by
    intro i h
    simp [chunkWrites]
  refine ⟨hlen, ?_, ?_, ?_, ?_⟩
  · intro i h
    rw [hget i h]
    exact ⟨rfl, rfl⟩
  · intro i h hnext
    rw [hget i h]
    have hpos : 0 < data.length := List.length_pos.mpr hne
    have hmul := numChunks_pred_mul_lt cs hcs data.length data.length rfl hpos
    rw [hlen] at h hnext
    have hle : i + 1 ≤ numChunks data.length cs - 1 := by omega
    have hmul2 : (i + 1) * cs ≤ (numChunks data.length cs - 1) * cs :=
      Nat.mul_le_mul_right cs hle
    have hbound : i * cs + cs < data.length := by
      have hexp : (i + 1) * cs = i * cs + cs := by
        rw [Nat.add_mul, one_mul]
      omega
    simp only [List.length_take, List.length_drop]
    omega
  · exact chunkWrites_flatten_aux cs hcs data.length data rfl
  · simp only [chunkWrites]
    rw [List.pairwise_map]
    exact (List.pairwise_lt_range _).imp
      (fun hab => by exact (Nat.mul_lt_mul_right hcs).mpr hab)

/-- C8 witness: the structural facts instantiated for a 3-byte payload
at chunk size 2. -/
theorem chunk_structure_witness :
    (0 < 2 ∧ ([5, 6, 7] : List Nat) ≠ []) ∧
    (chunkWrites [5, 6, 7] 2).length = numChunks 3 2 ∧
    ((chunkWrites [5, 6, 7] 2).map Prod.snd).flatten = [5, 6, 7] ∧
    List.Pairwise (fun a b : Nat × List Nat => a.1 < b.1) (chunkWrites [5, 6, 7] 2) := by
  have h := chunk_structure [5, 6, 7] 2 (by decide) (by decide)
  exact ⟨⟨by decide, by decide⟩, h.1, h.2.2.2.1, h.2.2.2.2⟩

/-- C9: whenever the greedy partitioner succeeds, every produced unit's
estimated bytes and compute are within the given limits (and equal the
sums over the unit's nodes), and concatenating the units' node subsets
in order reproduces the input node list exactly. -/
theorem partition_budget_invariant (nodes : List GraphNode) (lim : Limits)
    (units : List UnitGroup) (h : partition nodes lim = .ok units) :
    (∀ u ∈ units,
      u.estimatedBytes ≤ lim.maxBytes ∧ u.estimatedCompute ≤ lim.maxCompute ∧
      u.estimatedBytes = (u.nodes.map GraphNode.bytes).sum ∧
      u.estimatedCompute = (u.nodes.map GraphNode.compute).sum) ∧
    (units.map UnitGroup.nodes).flatten = nodes := by
  match nodes with
  | [] =>
    simp only [partition, Except.ok.injEq] at h
    subst h
    simp
  | n :: rest =>
    simp only [partition] at h
    split at h
    · rename_i hfit
      have hres := partitionAux_spec lim rest [n] n.bytes n.compute units h
        hfit.1 hfit.2 (by simp) (by simp)
      exact ⟨hres.1, by simpa using hres.2⟩
    · cases h

/-- C9 witness: two nodes that cannot share a unit under limits
`(5, 10)` partition into two singleton units within budget. -/
theorem partition_budget_invariant_witness :
    (partition [⟨3, 5⟩, ⟨4, 1⟩] ⟨5, 10⟩ =
      .ok [⟨[⟨3, 5⟩], 3, 5⟩, ⟨[⟨4, 1⟩], 4, 1⟩]) ∧
    (∀ u ∈ ([⟨[⟨3, 5⟩], 3, 5⟩, ⟨[⟨4, 1⟩], 4, 1⟩] : List UnitGroup),
      u.estimatedBytes ≤ (5 : Nat) ∧ u.estimatedCompute ≤ (10 : Nat) ∧
      u.estimatedBytes = (u.nodes.map GraphNode.bytes).sum ∧
      u.estimatedCompute = (u.nodes.map GraphNode.compute).sum) ∧
    (([⟨[⟨3, 5⟩], 3, 5⟩, ⟨[⟨4, 1⟩], 4, 1⟩] : List UnitGroup).map
      UnitGroup.nodes).flatten = [⟨3, 5⟩, ⟨4, 1⟩] :=
  ⟨rfl,
    (partition_budget_invariant [⟨3, 5⟩, ⟨4, 1⟩] ⟨5, 10⟩
      [⟨[⟨3, 5⟩], 3, 5⟩, ⟨[⟨4, 1⟩], 4, 1⟩] rfl).1,
    (partition_budget_invariant [⟨3, 5⟩, ⟨4, 1⟩] ⟨5, 10⟩
      [⟨[⟨3, 5⟩], 3, 5⟩, ⟨[⟨4, 1⟩], 4, 1⟩] rfl).2⟩

/-- C10: the public `direction` field of a parse result is only the
sign of the decoded quotient, which itself is exposed as
`rawDirection`; and an absent return buffer parses to `null`. -/
theorem parseResult_direction_is_sign :
    parseResult none = none ∧
    ∀ bytes r, parseResult (some bytes) = some r →
      r.direction = (if r.rawDirection > 0 then 1
                     else if r.rawDirection < 0 then -1 else 0) := by
  refine ⟨rfl, ?_⟩
  intro bytes r h
  match bytes with
  | [] => simp [parseResult] at h
  | [b0] => simp [parseResult] at h
  | [b0, b1] => simp [parseResult] at h
  | [b0, b1, b2] => simp [parseResult] at h
  | b0 :: b1 :: b2 :: b3 :: rest =>
    simp only [parseResult, Option.some.injEq] at h
    subst h
    rfl

/-- C10 witness: the sign law at the concrete buffer encoding
`-75123`. -/
theorem parseResult_direction_is_sign_witness :
    ∃ r, parseResult (some [141, 218, 254, 255]) = some r ∧
      r.direction = (if r.rawDirection > 0 then 1
                     else if r.rawDirection < 0 then -1 else 0) :=
  ⟨_, rfl, parseResult_direction_is_sign.2 [141, 218, 254, 255] _ rfl⟩

end OG65
